/-
Verification of the generic ECDSA signing/verification crate.

The development shallowly embeds the four source files:
  * `dev.rs`    — concrete scalar reduction for the 256-bit mock curve
                  (`FromDigest::from_digest`, `sub_inner`) over the NIST
                  P-256 group order `MODULUS`;
  * `sign.rs`   — `SigningKey` (construction, public-key derivation,
                  deterministic and randomized prehashed signing,
                  zeroization on drop);
  * `verify.rs` — `VerifyKey` and prehashed verification;
  * `signer.rs` — the older `Signer` type with the byte-oriented
                  prehashed signing primitive.

Machine integers are embedded as `Nat` with explicit `% 2 ^ 64` /
`% 2 ^ 128` wrapping, mirroring the `u64`/`u128` arithmetic of the
source.  Scalars of a curve whose group order is `n` are embedded as
`ZMod n`.  The elliptic-curve group itself, the `hazmat`
sign/verify primitives, and the `rfc6979` nonce generator are external
to the source tree; they are modelled from the specification where a
claim needs them, with the modelling decisions recorded in the doc
comment of each such definition.
-/
import Mathlib

/-! ## Byte-string utilities

The source manipulates big-endian byte strings (`GenericArray<u8, N>`):
digests, serialized scalars, and the 8-byte chunks fed to
`u64::from_be_bytes`.  A byte string is embedded as a `List Nat`
whose entries are below 256, and its big-endian value is the fold
below (this is exactly what `u64::from_be_bytes` and the canonical
big-endian scalar decoding compute). -/

/-- Big-endian value of a byte string: `u64::from_be_bytes` on 8-byte
chunks, and the canonical scalar decoding on 32-byte strings. -/
def fromBeBytes (bs : List Nat) : Nat :=
  bs.foldl (fun acc b => acc * 256 + b) 0

theorem fromBeBytes_foldl_acc (bs : List Nat) (acc : Nat) :
    bs.foldl (fun acc b => acc * 256 + b) acc =
      acc * 256 ^ bs.length + fromBeBytes bs := by
  induction bs generalizing acc with
  | nil => simp [fromBeBytes]
  | cons b bs ih =>
    simp only [List.foldl_cons, List.length_cons, fromBeBytes] at *
    rw [ih (acc * 256 + b), ih (0 * 256 + b)]
    ring

theorem fromBeBytes_append (xs ys : List Nat) :
    fromBeBytes (xs ++ ys) =
      fromBeBytes xs * 256 ^ ys.length + fromBeBytes ys := by
  simp only [fromBeBytes, List.foldl_append]
  rw [fromBeBytes_foldl_acc ys (List.foldl (fun acc b => acc * 256 + b) 0 xs)]
  rfl

theorem fromBeBytes_lt (bs : List Nat) (h : ∀ b ∈ bs, b < 256) :
    fromBeBytes bs < 256 ^ bs.length := by
  suffices H : ∀ acc, bs.foldl (fun acc b => acc * 256 + b) acc <
      (acc + 1) * 256 ^ bs.length by
    have := H 0
    simpa [fromBeBytes] using this
  induction bs with
  | nil => intro acc; simp
  | cons b bs ih =>
    intro acc
    simp only [List.foldl_cons, List.length_cons]
    calc List.foldl (fun acc b => acc * 256 + b) (acc * 256 + b) bs
        < (acc * 256 + b + 1) * 256 ^ bs.length := by
          refine ih ?_ _
          intro x hx; exact h x (List.mem_cons_of_mem _ hx)
      _ ≤ (acc + 1) * 256 ^ (bs.length + 1) := by
          have hb : b < 256 := h b (List.mem_cons_self b bs)
          have : acc * 256 + b + 1 ≤ (acc + 1) * 256 := by nlinarith
          calc (acc * 256 + b + 1) * 256 ^ bs.length
              ≤ ((acc + 1) * 256) * 256 ^ bs.length :=
                Nat.mul_le_mul_right _ this
            _ = (acc + 1) * 256 ^ (bs.length + 1) := by ring

/-! ## `dev.rs`: scalar reduction for the mock curve

`elliptic_curve::util::{sbb64, adc64}` are the wide-integer borrow /
carry primitives used by `sub_inner` (external crate, embedded from
their `u128`-based definitions):

```rust
pub const fn sbb64(a: u64, b: u64, borrow: u64) -> (u64, u64) {
    let ret = (a as u128).wrapping_sub((b as u128) + ((borrow >> 63) as u128));
    (ret as u64, (ret >> 64) as u64)
}
pub const fn adc64(a: u64, b: u64, carry: u64) -> (u64, u64) {
    let ret = (a as u128) + (b as u128) + (carry as u128);
    (ret as u64, (ret >> 64) as u64)
}
```
-/

/-- `sbb64`: 64-bit subtract-with-borrow.  `u128` wrapping subtraction
`x.wrapping_sub y` is `(x + 2 ^ 128 - y) % 2 ^ 128` (the subtrahend
`b + (borrow >> 63)` never exceeds `2 ^ 128` for `u64` inputs). -/
def sbb64 (a b borrow : Nat) : Nat × Nat :=
  let ret := (a + 2 ^ 128 - (b + borrow / 2 ^ 63)) % 2 ^ 128
  (ret % 2 ^ 64, ret / 2 ^ 64)

/-- `adc64`: 64-bit add-with-carry. -/
def adc64 (a b carry : Nat) : Nat × Nat :=
  let ret := a + b + carry
  (ret % 2 ^ 64, ret / 2 ^ 64)

/-- `elliptic_curve::dev::MODULUS`: the NIST P-256 group order as four
little-word-order `u64` limbs. -/
def MODULUS (i : Nat) : Nat :=
  [0xf3b9cac2fc632551, 0xbce6faada7179e84,
   0xffffffffffffffff, 0xffffffff00000000].getD i 0

/-- The NIST P-256 group order (value of the `MODULUS` limb vector). -/
def nP256 : Nat :=
  0xffffffff00000000ffffffffffffffffbce6faada7179e84f3b9cac2fc632551

/-- `Scalar::try_from([u64; 4])` of the mock curve: accepts the limb
vector exactly when its value is canonically reduced (below the group
order), and is the final conversion performed by `sub_inner`. -/
def scalarTryFrom (w0 w1 w2 w3 : Nat) : Option Nat :=
  let v := w0 + 2 ^ 64 * w1 + 2 ^ 128 * w2 + 2 ^ 192 * w3
  if v < nP256 then some v else none

/-- `sub_inner` from `dev.rs`: five-limb subtract-with-borrow of
`(r0..r4)` from `(l0..l4)`, followed by a constant-time conditional
add-back of `MODULUS` masked by the final borrow, then canonical
conversion.  A `none` result models the `.unwrap()` panic on a
non-canonical final value. -/
def sub_inner (l0 l1 l2 l3 l4 r0 r1 r2 r3 r4 : Nat) : Option Nat :=
  let s0 := sbb64 l0 r0 0
  let s1 := sbb64 l1 r1 s0.2
  let s2 := sbb64 l2 r2 s1.2
  let s3 := sbb64 l3 r3 s2.2
  let s4 := sbb64 l4 r4 s3.2
  let a0 := adc64 s0.1 (MODULUS 0 &&& s4.2) 0
  let a1 := adc64 s1.1 (MODULUS 1 &&& s4.2) a0.2
  let a2 := adc64 s2.1 (MODULUS 2 &&& s4.2) a1.2
  let a3 := adc64 s3.1 (MODULUS 3 &&& s4.2) a2.2
  scalarTryFrom a0.1 a1.1 a2.1 a3.1

/-- `FromDigest::from_digest` for the mock curve: split the finalized
32-byte digest into four big-endian `u64` limbs (least-significant
limb = bytes 24..32) and reduce modulo the group order via
`sub_inner`. -/
def from_digest (bytes : List Nat) : Option Nat :=
  sub_inner
    (fromBeBytes ((bytes.drop 24).take 8))
    (fromBeBytes ((bytes.drop 16).take 8))
    (fromBeBytes ((bytes.drop 8).take 8))
    (fromBeBytes (bytes.take 8))
    0
    (MODULUS 0)
    (MODULUS 1)
    (MODULUS 2)
    (MODULUS 3)
    0

/-! ### Arithmetic characterization of the reduction -/

theorem sbb64_step (a b c : Nat) (ha : a < 2 ^ 64) (hb : b < 2 ^ 64)
    (hc : c = 0 ∨ c = 2 ^ 64 - 1) :
    (sbb64 a b c).1 < 2 ^ 64 ∧
    ((sbb64 a b c).2 = 0 ∨ (sbb64 a b c).2 = 2 ^ 64 - 1) ∧
    (sbb64 a b c).1 + b + c / 2 ^ 63 =
      a + 2 ^ 64 * ((sbb64 a b c).2 / 2 ^ 63) := by
  simp only [sbb64]
  omega

theorem adc64_step (a b c : Nat) (ha : a < 2 ^ 64) (hb : b < 2 ^ 64)
    (hc : c ≤ 1) :
    (adc64 a b c).1 < 2 ^ 64 ∧ (adc64 a b c).2 ≤ 1 ∧
    (adc64 a b c).1 + 2 ^ 64 * (adc64 a b c).2 = a + b + c := by
  simp only [adc64]
  omega

/-- The `MODULUS` limb vector assembles to the group order. -/
theorem MODULUS_value :
    MODULUS 0 + 2 ^ 64 * MODULUS 1 + 2 ^ 128 * MODULUS 2 + 2 ^ 192 * MODULUS 3
      = nP256 := by
  norm_num [nP256, MODULUS]

/-- Full characterization of `sub_inner` on the inputs `from_digest`
feeds it: for any 256-bit value `L` given as four little-order limbs,
the subtract / conditional-add-back pipeline yields exactly
`L` when `L < n` and `L - n` otherwise, and the final canonical
conversion always succeeds. -/
theorem sub_inner_spec (l0 l1 l2 l3 : Nat)
    (h0 : l0 < 2 ^ 64) (h1 : l1 < 2 ^ 64) (h2 : l2 < 2 ^ 64) (h3 : l3 < 2 ^ 64) :
    sub_inner l0 l1 l2 l3 0 (MODULUS 0) (MODULUS 1) (MODULUS 2) (MODULUS 3) 0 =
      some (if l0 + 2 ^ 64 * l1 + 2 ^ 128 * l2 + 2 ^ 192 * l3 < nP256
            then l0 + 2 ^ 64 * l1 + 2 ^ 128 * l2 + 2 ^ 192 * l3
            else l0 + 2 ^ 64 * l1 + 2 ^ 128 * l2 + 2 ^ 192 * l3 - nP256) := by
  have e0 : MODULUS 0 = 0xf3b9cac2fc632551 := rfl
  have e1 : MODULUS 1 = 0xbce6faada7179e84 := rfl
  have e2 : MODULUS 2 = 0xffffffffffffffff := rfl
  have e3 : MODULUS 3 = 0xffffffff00000000 := rfl
  have hn : nP256 =
      0xffffffff00000000ffffffffffffffffbce6faada7179e84f3b9cac2fc632551 := rfl
  simp only [sub_inner, e0, e1, e2, e3]
  obtain ⟨hw0, hb0, he0⟩ :=
    sbb64_step l0 0xf3b9cac2fc632551 0 h0 (by norm_num) (Or.inl rfl)
  obtain ⟨hw1, hb1, he1⟩ :=
    sbb64_step l1 0xbce6faada7179e84 (sbb64 l0 0xf3b9cac2fc632551 0).2
      h1 (by norm_num) hb0
  obtain ⟨hw2, hb2, he2⟩ :=
    sbb64_step l2 0xffffffffffffffff
      (sbb64 l1 0xbce6faada7179e84 (sbb64 l0 0xf3b9cac2fc632551 0).2).2
      h2 (by norm_num) hb1
  obtain ⟨hw3, hb3, he3⟩ :=
    sbb64_step l3 0xffffffff00000000
      (sbb64 l2 0xffffffffffffffff
        (sbb64 l1 0xbce6faada7179e84 (sbb64 l0 0xf3b9cac2fc632551 0).2).2).2
      h3 (by norm_num) hb2
  obtain ⟨hw4, hb4, he4⟩ :=
    sbb64_step 0 0
      (sbb64 l3 0xffffffff00000000
        (sbb64 l2 0xffffffffffffffff
          (sbb64 l1 0xbce6faada7179e84 (sbb64 l0 0xf3b9cac2fc632551 0).2).2).2).2
      (by norm_num) (by norm_num) hb3
  rcases hb4 with h4 | h4 <;> rw [h4] <;> rw [h4] at he4
  · simp only [Nat.and_zero]
    obtain ⟨ha0, hc0, hf0⟩ :=
      adc64_step (sbb64 l0 0xf3b9cac2fc632551 0).1 0 0 hw0 (by norm_num)
        (by norm_num)
    obtain ⟨ha1, hc1, hf1⟩ :=
      adc64_step (sbb64 l1 0xbce6faada7179e84 (sbb64 l0 0xf3b9cac2fc632551 0).2).1
        0 (adc64 (sbb64 l0 0xf3b9cac2fc632551 0).1 0 0).2 hw1 (by norm_num) hc0
    obtain ⟨ha2, hc2, hf2⟩ :=
      adc64_step
        (sbb64 l2 0xffffffffffffffff
          (sbb64 l1 0xbce6faada7179e84 (sbb64 l0 0xf3b9cac2fc632551 0).2).2).1
        0
        (adc64 (sbb64 l1 0xbce6faada7179e84 (sbb64 l0 0xf3b9cac2fc632551 0).2).1
          0 (adc64 (sbb64 l0 0xf3b9cac2fc632551 0).1 0 0).2).2
        hw2 (by norm_num) hc1
    obtain ⟨ha3, hc3, hf3⟩ :=
      adc64_step
        (sbb64 l3 0xffffffff00000000
          (sbb64 l2 0xffffffffffffffff
            (sbb64 l1 0xbce6faada7179e84
              (sbb64 l0 0xf3b9cac2fc632551 0).2).2).2).1
        0
        (adc64
          (sbb64 l2 0xffffffffffffffff
            (sbb64 l1 0xbce6faada7179e84 (sbb64 l0 0xf3b9cac2fc632551 0).2).2).1
          0
          (adc64 (sbb64 l1 0xbce6faada7179e84 (sbb64 l0 0xf3b9cac2fc632551 0).2).1
            0 (adc64 (sbb64 l0 0xf3b9cac2fc632551 0).1 0 0).2).2).2
        hw3 (by norm_num) hc2
    simp only [scalarTryFrom]
    split_ifs
    all_goals first
      | exact congrArg some (by omega)
      | (exfalso; omega)
  · have hmask0 : 0xf3b9cac2fc632551 &&& 2 ^ 64 - 1 = 0xf3b9cac2fc632551 := by
      rw [Nat.and_pow_two_sub_one_eq_mod]
    have hmask1 : 0xbce6faada7179e84 &&& 2 ^ 64 - 1 = 0xbce6faada7179e84 := by
      rw [Nat.and_pow_two_sub_one_eq_mod]
    have hmask2 : 0xffffffffffffffff &&& 2 ^ 64 - 1 = 0xffffffffffffffff := by
      rw [Nat.and_pow_two_sub_one_eq_mod]
    have hmask3 : 0xffffffff00000000 &&& 2 ^ 64 - 1 = 0xffffffff00000000 := by
      rw [Nat.and_pow_two_sub_one_eq_mod]
    rw [hmask0, hmask1, hmask2, hmask3]
    obtain ⟨ha0, hc0, hf0⟩ :=
      adc64_step (sbb64 l0 0xf3b9cac2fc632551 0).1 0xf3b9cac2fc632551 0 hw0
        (by norm_num) (by norm_num)
    obtain ⟨ha1, hc1, hf1⟩ :=
      adc64_step (sbb64 l1 0xbce6faada7179e84 (sbb64 l0 0xf3b9cac2fc632551 0).2).1
        0xbce6faada7179e84
        (adc64 (sbb64 l0 0xf3b9cac2fc632551 0).1 0xf3b9cac2fc632551 0).2
        hw1 (by norm_num) hc0
    obtain ⟨ha2, hc2, hf2⟩ :=
      adc64_step
        (sbb64 l2 0xffffffffffffffff
          (sbb64 l1 0xbce6faada7179e84 (sbb64 l0 0xf3b9cac2fc632551 0).2).2).1
        0xffffffffffffffff
        (adc64 (sbb64 l1 0xbce6faada7179e84 (sbb64 l0 0xf3b9cac2fc632551 0).2).1
          0xbce6faada7179e84
          (adc64 (sbb64 l0 0xf3b9cac2fc632551 0).1 0xf3b9cac2fc632551 0).2).2
        hw2 (by norm_num) hc1
    obtain ⟨ha3, hc3, hf3⟩ :=
      adc64_step
        (sbb64 l3 0xffffffff00000000
          (sbb64 l2 0xffffffffffffffff
            (sbb64 l1 0xbce6faada7179e84
              (sbb64 l0 0xf3b9cac2fc632551 0).2).2).2).1
        0xffffffff00000000
        (adc64
          (sbb64 l2 0xffffffffffffffff
            (sbb64 l1 0xbce6faada7179e84 (sbb64 l0 0xf3b9cac2fc632551 0).2).2).1
          0xffffffffffffffff
          (adc64 (sbb64 l1 0xbce6faada7179e84 (sbb64 l0 0xf3b9cac2fc632551 0).2).1
            0xbce6faada7179e84
            (adc64 (sbb64 l0 0xf3b9cac2fc632551 0).1 0xf3b9cac2fc632551 0).2).2).2
        hw3 (by norm_num) hc2
    simp only [scalarTryFrom]
    split_ifs
    all_goals first
      | exact congrArg some (by omega)
      | (exfalso; omega)

/-- A 32-byte string splits into its four 8-byte limb chunks. -/
theorem bytes32_chunks (bytes : List Nat) (hlen : bytes.length = 32) :
    bytes = bytes.take 8 ++ ((bytes.drop 8).take 8 ++
      ((bytes.drop 16).take 8 ++ (bytes.drop 24).take 8)) := by
  have h24 : (bytes.drop 24).take 8 = bytes.drop 24 :=
    List.take_of_length_le (by simp [hlen])
  have e16 : (bytes.drop 16).take 8 ++ (bytes.drop 24).take 8 = bytes.drop 16 := by
    rw [h24, show (24 : Nat) = 16 + 8 from rfl, ← List.drop_drop]
    exact List.take_append_drop 8 (bytes.drop 16)
  have e8 : (bytes.drop 8).take 8 ++ bytes.drop 16 = bytes.drop 8 := by
    rw [show (16 : Nat) = 8 + 8 from rfl, ← List.drop_drop]
    exact List.take_append_drop 8 (bytes.drop 8)
  rw [e16, e8]
  exact (List.take_append_drop 8 bytes).symm

/-- The big-endian value of a 32-byte digest in terms of its four
big-endian `u64` limbs. -/
theorem fromBeBytes_limbs (bytes : List Nat) (hlen : bytes.length = 32) :
    fromBeBytes bytes =
      fromBeBytes ((bytes.drop 24).take 8) +
      2 ^ 64 * fromBeBytes ((bytes.drop 16).take 8) +
      2 ^ 128 * fromBeBytes ((bytes.drop 8).take 8) +
      2 ^ 192 * fromBeBytes (bytes.take 8) := by
  have l8 : ((bytes.drop 8).take 8).length = 8 := by simp [hlen]
  have l16 : ((bytes.drop 16).take 8).length = 8 := by simp [hlen]
  have l24 : ((bytes.drop 24).take 8).length = 8 := by simp [hlen]
  conv_lhs => rw [bytes32_chunks bytes hlen]
  rw [fromBeBytes_append, fromBeBytes_append, fromBeBytes_append]
  simp only [List.length_append, l8, l16, l24]
  ring

/-- Byte-level characterization of the digest-to-scalar reduction of
`dev.rs`: on a 32-byte digest of value `L`, `from_digest` returns `L`
when `L < n` and `L - n` otherwise. -/
theorem from_digest_spec (bytes : List Nat) (hlen : bytes.length = 32)
    (hb : ∀ b ∈ bytes, b < 256) :
    from_digest bytes =
      some (if fromBeBytes bytes < nP256 then fromBeBytes bytes
            else fromBeBytes bytes - nP256) := by
  have hlt : ∀ k : Nat, fromBeBytes ((bytes.drop k).take 8) < 2 ^ 64 := by
    intro k
    have := fromBeBytes_lt ((bytes.drop k).take 8)
      (fun b hb' => hb b (List.mem_of_mem_drop (List.mem_of_mem_take hb')))
    calc fromBeBytes ((bytes.drop k).take 8)
        < 256 ^ ((bytes.drop k).take 8).length := this
      _ ≤ 256 ^ 8 := Nat.pow_le_pow_right (by norm_num)
          (by simp)
      _ = 2 ^ 64 := by norm_num
  have htop : fromBeBytes (bytes.take 8) < 2 ^ 64 := by
    have h := hlt 0
    simp only [List.drop_zero] at h
    exact h
  rw [from_digest, sub_inner_spec _ _ _ _ (hlt 24) (hlt 16) (hlt 8) htop,
    ← fromBeBytes_limbs bytes hlen]

/-! ## The curve-generic orchestration layer (`sign.rs`, `verify.rs`)

`SigningKey`/`VerifyKey` are generic over any curve supplying the
capability interface of §6 of the specification.  The development is
correspondingly generic in the group order `n`: scalars are `ZMod n`.

The elliptic-curve group is an external collaborator (it never appears
in the source tree; the source only uses scalar multiplication of the
generator, point addition, and x-coordinate extraction through the
`hazmat` capabilities).  It is modelled as the cyclic group generated
by the base point `G`, written by exponents: the point `e • G` is
embedded as `e : ZMod n`, the generator as `1`, point addition as
addition of exponents and scalar multiplication as multiplication —
the unique faithful model of any cyclic group of order `n` generated
by `G`.  The affine x-coordinate capability is an arbitrary function
`xcoord` on points, over which all theorems are universally
quantified.

`rfc6979::generate_k` and the per-curve `FromDigest` reduction are
collaborators invoked (not defined) by `sign.rs`/`verify.rs`; the
orchestration definitions take them as the function parameters `genK`
and `fromDigestC`, so the theorems about the orchestration hold for
every instantiation of those collaborators.  A digest that has been
finalized is its 32-byte output, embedded as a `List Nat`. -/

/-- The base point `G` of the external curve group, in the exponent
model. -/
def generatorP (n : Nat) : ZMod n := 1

/-- Modelled from the spec: `hazmat::SignPrimitive::try_sign_prehashed`
(§6): `R = k*G`; `r = R.x mod n`; `s = k⁻¹ (z + r·d) mod n`; fails if
`r == 0` or `s == 0`.  The resulting signature is the raw big-endian
pair of the two scalar values. -/
def try_sign_prehashed (n : Nat) (xcoord : ZMod n → ZMod n)
    (d k z : ZMod n) : Option (Nat × Nat) :=
  let r := xcoord (k * generatorP n)
  if r = 0 then none
  else
    let s := k⁻¹ * (z + r * d)
    if s = 0 then none
    else some (r.val, s.val)

/-- Modelled from the spec: `hazmat::VerifyPrimitive::verify_prehashed`
(§4.4, §6): reject any malformed signature component (`r == 0`,
`s == 0`, `r ≥ n`, `s ≥ n`), then recompute `u1 = z·s⁻¹`,
`u2 = r·s⁻¹`, `R' = u1·G + u2·Q` and accept iff `R'.x mod n == r`.
`none` is the `VerificationFailed` error. -/
def verify_prehashed (n : Nat) (xcoord : ZMod n → ZMod n) (Q z : ZMod n)
    (signature : Nat × Nat) : Option Unit :=
  if signature.1 = 0 ∨ signature.2 = 0 ∨
      n ≤ signature.1 ∨ n ≤ signature.2 then none
  else
    let r : ZMod n := (signature.1 : ZMod n)
    let s : ZMod n := (signature.2 : ZMod n)
    let u1 := z * s⁻¹
    let u2 := r * s⁻¹
    let R := u1 * generatorP n + u2 * Q
    if xcoord R = r then some () else none

/-- `SigningKey` from `sign.rs`: owns the secret (non-zero) scalar. -/
structure SigningKey (n : Nat) where
  secret_scalar : ZMod n

/-- `VerifyKey` from `verify.rs`: wraps the public key point. -/
structure VerifyKey (n : Nat) where
  inner : ZMod n

/-- `SigningKey::verify_key`: `public_key = generator * secret_scalar`. -/
def SigningKey.verify_key (n : Nat) (key : SigningKey n) : VerifyKey n :=
  ⟨generatorP n * key.secret_scalar⟩

/-- `SigningKey::try_sign_digest` (`DigestSigner` impl in `sign.rs`):
derive the ephemeral scalar via `rfc6979::generate_k` with empty extra
entropy, reduce the digest to the message scalar via
`C::Scalar::from_digest`, and delegate to the sign primitive. -/
def SigningKey.try_sign_digest (n : Nat) (xcoord : ZMod n → ZMod n)
    (genK : ZMod n → List Nat → List Nat → ZMod n)
    (fromDigestC : List Nat → ZMod n)
    (key : SigningKey n) (digest : List Nat) : Option (Nat × Nat) :=
  let ephemeral_scalar := genK key.secret_scalar digest []
  let msg_scalar := fromDigestC digest
  try_sign_prehashed n xcoord key.secret_scalar ephemeral_scalar msg_scalar

/-- `VerifyKey::verify_digest` (`DigestVerifier` impl in `verify.rs`):
reduce the digest via `Scalar::from_digest` and delegate to the
verify primitive on the wrapped public point. -/
def VerifyKey.verify_digest (n : Nat) (xcoord : ZMod n → ZMod n)
    (fromDigestC : List Nat → ZMod n)
    (vk : VerifyKey n) (digest : List Nat) (signature : Nat × Nat) :
    Option Unit :=
  verify_prehashed n xcoord vk.inner (fromDigestC digest) signature

/-- C1: for every secret key and digest, verification with the derived
public key succeeds on the signature produced by deterministic
prehashed signing: whenever `try_sign_digest` returns a signature,
`verify_digest` on `verify_key` accepts it. -/
theorem round_trip (n : Nat) [Fact n.Prime] (xcoord : ZMod n → ZMod n)
    (genK : ZMod n → List Nat → List Nat → ZMod n)
    (fromDigestC : List Nat → ZMod n)
    (key : SigningKey n) (digest : List Nat) (sig : Nat × Nat)
    (hsig : SigningKey.try_sign_digest n xcoord genK fromDigestC key digest
      = some sig) :
    VerifyKey.verify_digest n xcoord fromDigestC
      (SigningKey.verify_key n key) digest sig = some () := by
  simp only [SigningKey.try_sign_digest, try_sign_prehashed, generatorP,
    mul_one] at hsig
  set d := key.secret_scalar with hd
  set k := genK key.secret_scalar digest [] with hk0
  set z := fromDigestC digest with hz0
  by_cases hr : xcoord k = 0
  · rw [if_pos hr] at hsig; exact absurd hsig (by simp)
  rw [if_neg hr] at hsig
  by_cases hs : k⁻¹ * (z + xcoord k * d) = 0
  · rw [if_pos hs] at hsig; exact absurd hsig (by simp)
  rw [if_neg hs] at hsig
  obtain rfl : ((xcoord k).val, (k⁻¹ * (z + xcoord k * d)).val) = sig :=
    Option.some.inj hsig
  have hk : k ≠ 0 := by
    intro h0
    exact hs (by rw [h0, inv_zero, zero_mul])
  set r := xcoord k with hr0
  set s := k⁻¹ * (z + r * d) with hs0
  simp only [VerifyKey.verify_digest, verify_prehashed,
    SigningKey.verify_key, generatorP, one_mul, mul_one]
  have hrv : ¬ r.val = 0 := fun h => hr ((ZMod.val_eq_zero r).mp h)
  have hsv : ¬ s.val = 0 := fun h => hs ((ZMod.val_eq_zero s).mp h)
  have hcond : ¬ (r.val = 0 ∨ s.val = 0 ∨ n ≤ r.val ∨ n ≤ s.val) := by
    push_neg
    exact ⟨hrv, hsv, ZMod.val_lt r, ZMod.val_lt s⟩
  rw [if_neg hcond]
  rw [ZMod.natCast_rightInverse r, ZMod.natCast_rightInverse s]
  have hzrd : z + r * d = k * s := by
    rw [hs0, ← mul_assoc, mul_inv_cancel₀ hk, one_mul]
  rw [← hz0, ← hd]
  have hR : z * s⁻¹ + r * s⁻¹ * d = k := by
    calc z * s⁻¹ + r * s⁻¹ * d = (z + r * d) * s⁻¹ := by ring
      _ = (k * s) * s⁻¹ := by rw [hzrd]
      _ = k * (s * s⁻¹) := by ring
      _ = k := by rw [mul_inv_cancel₀ hs, mul_one]
  rw [hR, if_pos rfl]

/-- Witness for C1 on the 7-element curve group: with `d = 1`,
message scalar `2` and nonce `3`, signing yields `(r, s) = (3, 4)` and
verification accepts it. -/
theorem round_trip_witness :
    SigningKey.try_sign_digest 7 id (fun _ _ _ => 3) (fun _ => 2) ⟨1⟩ []
        = some (3, 4) ∧
    VerifyKey.verify_digest 7 id (fun _ => 2)
        (SigningKey.verify_key 7 ⟨1⟩) [] (3, 4) = some () := by
  have hmul : (3 : ZMod 7) * 5 = 1 := by decide
  have hsig : SigningKey.try_sign_digest 7 id (fun _ _ _ => 3) (fun _ => 2)
      ⟨1⟩ [] = some (3, 4) := by
    have hinv : (3 : ZMod 7)⁻¹ = 5 := by
      haveI : Fact (Nat.Prime 7) := ⟨by norm_num⟩
      exact inv_eq_of_mul_eq_one_right hmul
    simp only [SigningKey.try_sign_digest, try_sign_prehashed, generatorP,
      mul_one, hinv]
    decide
  refine ⟨hsig, ?_⟩
  haveI : Fact (Nat.Prime 7) := ⟨by norm_num⟩
  exact round_trip 7 id (fun _ _ _ => 3) (fun _ => 2) ⟨1⟩ [] (3, 4) hsig

/-- C3: deterministic prehashed signing is a pure function of the
secret key and the digest — equal digests give identical signatures,
for every instantiation of the collaborators. -/
theorem try_sign_digest_deterministic (n : Nat) (xcoord : ZMod n → ZMod n)
    (genK : ZMod n → List Nat → List Nat → ZMod n)
    (fromDigestC : List Nat → ZMod n) (key : SigningKey n)
    (h₁ h₂ : List Nat) (hh : h₁ = h₂) :
    SigningKey.try_sign_digest n xcoord genK fromDigestC key h₁ =
      SigningKey.try_sign_digest n xcoord genK fromDigestC key h₂ := by
  rw [hh]

/-- Witness for C3 at a concrete key and digest. -/
theorem try_sign_digest_deterministic_witness :
    SigningKey.try_sign_digest 7 id (fun _ _ _ => 3) (fun _ => 2) ⟨1⟩ [5] =
      SigningKey.try_sign_digest 7 id (fun _ _ _ => 3) (fun _ => 2) ⟨1⟩ [5] :=
  try_sign_digest_deterministic 7 id (fun _ _ _ => 3) (fun _ => 2) ⟨1⟩
    [5] [5] rfl

/-- C4: prehashed verification rejects — with the `VerificationFailed`
error, never acceptance — every signature one of whose raw components
is zero or not below the group order. -/
theorem verify_digest_rejects_malformed (n : Nat)
    (xcoord : ZMod n → ZMod n) (fromDigestC : List Nat → ZMod n)
    (vk : VerifyKey n) (digest : List Nat) (signature : Nat × Nat)
    (hbad : signature.1 = 0 ∨ signature.2 = 0 ∨
      n ≤ signature.1 ∨ n ≤ signature.2) :
    VerifyKey.verify_digest n xcoord fromDigestC vk digest signature
      = none := by
  simp only [VerifyKey.verify_digest, verify_prehashed]
  rw [if_pos hbad]

/-- Witness for C4: a signature with `r = 0` is rejected. -/
theorem verify_digest_rejects_malformed_witness :
    VerifyKey.verify_digest 7 id (fun _ => 2) ⟨3⟩ [] (0, 1) = none :=
  verify_digest_rejects_malformed 7 id (fun _ => 2) ⟨3⟩ [] (0, 1)
    (Or.inl rfl)

/-! ## Key lifecycle (`sign.rs`, `signer.rs`) -/

/-- Modelled from the spec: `NonZeroScalar::from_field_bytes` /
`NonZeroScalar::from_bytes` of the external scalar-arithmetic
capability (§4.5, §6): canonical fixed-width big-endian decode that
rejects non-canonical values (`≥ n`), combined with the non-zero
check.  Returns the decoded scalar value. -/
def NonZeroScalar.from_field_bytes (n : Nat) (bytes : List Nat) :
    Option Nat :=
  let x := fromBeBytes bytes
  if 1 ≤ x ∧ x < n then some x else none

/-- `SigningKey::new` from `sign.rs`: `bytes.try_into()` (length check
against the curve's field byte size `w`) chained with
`NonZeroScalar::from_field_bytes`; `none` is the `InvalidKey`
error. -/
def SigningKey.new (n w : Nat) (bytes : List Nat) :
    Option (SigningKey n) :=
  if bytes.length = w then
    (NonZeroScalar.from_field_bytes n bytes).map
      (fun secret_scalar => ⟨(secret_scalar : ZMod n)⟩)
  else none

/-- `Signer` from `signer.rs`: owns the secret (non-zero) scalar. -/
structure Signer (n : Nat) where
  secret_scalar : ZMod n

/-- `Signer::new` from `signer.rs`: `NonZeroScalar::from_bytes` on the
secret key's fixed-width byte serialization (the length is enforced by
the `SecretKey` type); `none` is the returned `Error`. -/
def Signer.new (n : Nat) (secret_key_bytes : List Nat) :
    Option (Signer n) :=
  (NonZeroScalar.from_field_bytes n secret_key_bytes).map
    (fun secret_scalar => ⟨(secret_scalar : ZMod n)⟩)

/-- C7: constructing a signing key from raw secret bytes succeeds
exactly when the bytes decode (at the expected width, for
`SigningKey::new`) to a non-zero scalar strictly below the group
order; otherwise the `InvalidKey` error is returned and no key is
produced. -/
theorem signing_key_new_spec (n w : Nat) (bytes : List Nat) :
    ((SigningKey.new n w bytes).isSome ↔
      (bytes.length = w ∧ 1 ≤ fromBeBytes bytes ∧ fromBeBytes bytes < n)) ∧
    ((Signer.new n bytes).isSome ↔
      (1 ≤ fromBeBytes bytes ∧ fromBeBytes bytes < n)) := by
  constructor
  · by_cases hl : bytes.length = w <;>
      by_cases hx : 1 ≤ fromBeBytes bytes ∧ fromBeBytes bytes < n <;>
      simp [SigningKey.new, NonZeroScalar.from_field_bytes, hl, hx]
  · by_cases hx : 1 ≤ fromBeBytes bytes ∧ fromBeBytes bytes < n <;>
      simp [Signer.new, NonZeroScalar.from_field_bytes, hx]

/-- `SigningKey::zeroize` (which `Drop::drop` always invokes): the
wrapped secret scalar's storage is overwritten with the fixed all-zero
pattern. -/
def SigningKey.zeroize (n : Nat) (_key : SigningKey n) : SigningKey n :=
  ⟨0⟩

/-- `Drop for SigningKey`: `fn drop(&mut self) { self.zeroize(); }`. -/
def SigningKey.drop (n : Nat) (key : SigningKey n) : SigningKey n :=
  SigningKey.zeroize n key

/-- `Signer::zeroize` from `signer.rs`. -/
def Signer.zeroize (n : Nat) (_sg : Signer n) : Signer n :=
  ⟨0⟩

/-- `Drop for Signer`: delegates to `zeroize`. -/
def Signer.drop (n : Nat) (sg : Signer n) : Signer n :=
  Signer.zeroize n sg

/-- C8: on both exit paths of a signing-key object (explicit `zeroize`
and the `drop` that invokes it) the stored secret scalar is
overwritten with the fixed zero pattern, so it no longer contains the
original (non-zero) secret value — for both `SigningKey` and
`Signer`. -/
theorem zeroize_clears (n : Nat) (key : SigningKey n) (sg : Signer n)
    (hk : key.secret_scalar ≠ 0) (hs : sg.secret_scalar ≠ 0) :
    (SigningKey.drop n key = SigningKey.zeroize n key ∧
      (SigningKey.zeroize n key).secret_scalar = 0 ∧
      (SigningKey.zeroize n key).secret_scalar ≠ key.secret_scalar) ∧
    (Signer.drop n sg = Signer.zeroize n sg ∧
      (Signer.zeroize n sg).secret_scalar = 0 ∧
      (Signer.zeroize n sg).secret_scalar ≠ sg.secret_scalar) :=
  ⟨⟨rfl, rfl, fun h => hk h.symm⟩, ⟨rfl, rfl, fun h => hs h.symm⟩⟩

/-- Witness for C8 at concrete non-zero keys. -/
theorem zeroize_clears_witness :
    (SigningKey.drop 7 ⟨3⟩ = SigningKey.zeroize 7 ⟨3⟩ ∧
      (SigningKey.zeroize 7 ⟨3⟩).secret_scalar = 0 ∧
      (SigningKey.zeroize 7 ⟨3⟩).secret_scalar ≠
        (⟨3⟩ : SigningKey 7).secret_scalar) ∧
    (Signer.drop 7 ⟨2⟩ = Signer.zeroize 7 ⟨2⟩ ∧
      (Signer.zeroize 7 ⟨2⟩).secret_scalar = 0 ∧
      (Signer.zeroize 7 ⟨2⟩).secret_scalar ≠
        (⟨2⟩ : Signer 7).secret_scalar) :=
  zeroize_clears 7 ⟨3⟩ ⟨2⟩ (by decide) (by decide)

/-! ## The older byte-oriented signing entry point (`signer.rs`) -/

/-- Modelled from the spec: the older
`hazmat::SignPrimitive::try_sign_prehashed` used by `signer.rs` takes
the finalized digest *bytes* (`&digest.finalize()`) and first derives
the message scalar via the curve's Scalar Reduction (§4.3), then
applies the ECDSA signing equations (§6) — the same equations as the
scalar-oriented primitive. -/
def try_sign_prehashed_bytes (n : Nat) (xcoord : ZMod n → ZMod n)
    (fromDigestC : List Nat → ZMod n) (d k : ZMod n)
    (hashed_msg : List Nat) : Option (Nat × Nat) :=
  try_sign_prehashed n xcoord d k (fromDigestC hashed_msg)

/-- `Signer::try_sign_digest` (`DigestSigner` impl in `signer.rs`):
derive the ephemeral scalar via `rfc6979::generate_k` with empty extra
entropy and pass the raw finalized digest bytes to the byte-oriented
primitive. -/
def Signer.try_sign_digest (n : Nat) (xcoord : ZMod n → ZMod n)
    (genK : ZMod n → List Nat → List Nat → ZMod n)
    (fromDigestC : List Nat → ZMod n)
    (sg : Signer n) (digest : List Nat) : Option (Nat × Nat) :=
  let ephemeral_scalar := genK sg.secret_scalar digest []
  try_sign_prehashed_bytes n xcoord fromDigestC sg.secret_scalar
    ephemeral_scalar digest

/-- C10: the two deterministic prehashed signing entry points agree on
every (key, digest) input: `Signer::try_sign_digest` (raw digest bytes
into the byte-oriented primitive, which reduces internally) and
`SigningKey::try_sign_digest` (digest reduced via `from_digest` before
the scalar-oriented primitive) produce equal signatures. -/
theorem signer_signing_key_agree (n : Nat) (xcoord : ZMod n → ZMod n)
    (genK : ZMod n → List Nat → List Nat → ZMod n)
    (fromDigestC : List Nat → ZMod n) (d : ZMod n) (digest : List Nat) :
    Signer.try_sign_digest n xcoord genK fromDigestC ⟨d⟩ digest =
      SigningKey.try_sign_digest n xcoord genK fromDigestC ⟨d⟩ digest :=
  rfl

/-! ## `rfc6979::generate_k` (nonce generation) -/

/-- Modelled from the spec: the generation loop of
`rfc6979::generate_k` (§4.2 step 5), parameterized over the external
keyed MAC `HMAC` (whose output, as in the SHA-256 / 256-bit-curve
instantiation this crate ships, is assumed to fill one candidate per
block), the group order `n` and the scalar bit length `qlen`:
repeatedly set `V = HMAC(K, V)`, interpret the leading `qlen` bits of
`V` as a candidate, accept it if it lies in `[1, n-1]`, otherwise
update `K = HMAC(K, V ∥ 0x00)`, `V = HMAC(K, V)` and retry.  The
probabilistically terminating retry loop is modelled with explicit
fuel (§9); `none` is fuel exhaustion, not an error of the source. -/
def generate_k_loop (HMAC : List Nat → List Nat → List Nat)
    (n qlen : Nat) : Nat → List Nat → List Nat → Option Nat
  | 0, _, _ => none
  | fuel + 1, K, V =>
    let V' := HMAC K V
    let c := fromBeBytes V' / 2 ^ (8 * V'.length - qlen)
    if 1 ≤ c ∧ c ≤ n - 1 then some c
    else
      let K' := HMAC K (V' ++ [0])
      generate_k_loop HMAC n qlen fuel K' (HMAC K' V')

/-- Modelled from the spec: `rfc6979::generate_k` (§4.2).  `hlen` is
the MAC output/block byte length; the state is initialized to
`V = 0x01…01`, `K = 0x00…00`, seeded by the two keyed updates with the
secret bytes, digest bytes and optional extra entropy (hedged mode),
then the generation loop runs. -/
def generate_k (HMAC : List Nat → List Nat → List Nat)
    (n qlen hlen : Nat)
    (secret_bytes digest_bytes extra_entropy : List Nat)
    (fuel : Nat) : Option Nat :=
  let V0 := List.replicate hlen 1
  let K0 := List.replicate hlen 0
  let K1 := HMAC K0 (V0 ++ [0] ++ secret_bytes ++ digest_bytes ++ extra_entropy)
  let V1 := HMAC K1 V0
  let K2 := HMAC K1 (V1 ++ [1] ++ secret_bytes ++ digest_bytes ++ extra_entropy)
  let V2 := HMAC K2 V1
  generate_k_loop HMAC n qlen fuel K2 V2

theorem generate_k_loop_valid (HMAC : List Nat → List Nat → List Nat)
    (n qlen : Nat) :
    ∀ (fuel : Nat) (K V : List Nat) (k : Nat),
      generate_k_loop HMAC n qlen fuel K V = some k → 1 ≤ k ∧ k < n := by
  intro fuel
  induction fuel with
  | zero =>
    intro K V k h
    exact absurd h (by simp [generate_k_loop])
  | succ m ih =>
    intro K V k h
    rw [generate_k_loop] at h
    simp only at h
    split_ifs at h with hc
    · obtain rfl : _ = k := Option.some.inj h
      omega
    · exact ih _ _ _ h

/-- C5: every ephemeral scalar the nonce generator returns is a
non-zero, fully reduced scalar: `1 ≤ k < n`.  Candidates outside the
range only cause internal retries, never an externally visible
error. -/
theorem generate_k_valid (HMAC : List Nat → List Nat → List Nat)
    (n qlen hlen : Nat) (sb db ee : List Nat) (fuel k : Nat)
    (hk : generate_k HMAC n qlen hlen sb db ee fuel = some k) :
    1 ≤ k ∧ k < n :=
  generate_k_loop_valid HMAC n qlen fuel _ _ k hk

/-- Witness for C5: a MAC whose block value truncates to the candidate
`1` makes the generator return `k = 1`, which is in range for
`n = 7`. -/
theorem generate_k_valid_witness :
    generate_k (fun _ _ => [32]) 7 3 1 [] [] [] 1 = some 1 ∧
      (1 ≤ 1 ∧ 1 < 7) :=
  ⟨by decide, generate_k_valid (fun _ _ => [32]) 7 3 1 [] [] [] 1 1 (by decide)⟩

/-! ## Claim theorems for the `dev.rs` reduction -/

/-- C2: `from_digest` on a 32-byte digest of big-endian value `L`
returns `L` when `L < n` and `L - n` when `n ≤ L < 2 ^ 256` — the
single subtraction with constant-time conditional add-back
suffices. -/
theorem from_digest_reduction_correct (bytes : List Nat)
    (hlen : bytes.length = 32) (hb : ∀ b ∈ bytes, b < 256) :
    from_digest bytes =
      some (if fromBeBytes bytes < nP256 then fromBeBytes bytes
            else fromBeBytes bytes - nP256) :=
  from_digest_spec bytes hlen hb

/-- Witness for C2: the all-zero digest reduces to the scalar `0`. -/
theorem from_digest_reduction_correct_witness :
    from_digest (List.replicate 32 0) = some 0 := by
  have h := from_digest_reduction_correct (List.replicate 32 0)
    (by decide) (by decide)
  have e : fromBeBytes (List.replicate 32 0) = 0 := by decide
  rw [h, e, if_pos (by norm_num [nP256])]

/-- C6: the final canonical conversion inside `sub_inner` never fails
on the inputs `from_digest` supplies: for every four 64-bit limbs the
value after the conditional add-back is strictly below the group
order, so the concluding `try_from(...).unwrap()` is unreachable as a
failure path. -/
theorem sub_inner_conversion_never_fails (l0 l1 l2 l3 : Nat)
    (h0 : l0 < 2 ^ 64) (h1 : l1 < 2 ^ 64) (h2 : l2 < 2 ^ 64)
    (h3 : l3 < 2 ^ 64) :
    ∃ v, sub_inner l0 l1 l2 l3 0
        (MODULUS 0) (MODULUS 1) (MODULUS 2) (MODULUS 3) 0 = some v ∧
      v < nP256 := by
  rw [sub_inner_spec l0 l1 l2 l3 h0 h1 h2 h3]
  refine ⟨_, rfl, ?_⟩
  have hn : nP256 =
      0xffffffff00000000ffffffffffffffffbce6faada7179e84f3b9cac2fc632551 :=
    rfl
  split_ifs with hv
  · exact hv
  · omega

/-- Witness for C6 at the limb vector of value `1`. -/
theorem sub_inner_conversion_never_fails_witness :
    ∃ v, sub_inner 1 0 0 0 0
        (MODULUS 0) (MODULUS 1) (MODULUS 2) (MODULUS 3) 0 = some v ∧
      v < nP256 :=
  sub_inner_conversion_never_fails 1 0 0 0
    (by norm_num) (by norm_num) (by norm_num) (by norm_num)

/-- `SigningKey::try_sign_digest_with_rng` (`RandomizedDigestSigner`
impl in `sign.rs`): fill `added_entropy` from the supplied RNG (the
drawn bytes are modelled as an explicit parameter) and mix it into the
RFC 6979 derivation as the extra-entropy argument; otherwise identical
to the deterministic path. -/
def SigningKey.try_sign_digest_with_rng (n : Nat)
    (xcoord : ZMod n → ZMod n)
    (genK : ZMod n → List Nat → List Nat → ZMod n)
    (fromDigestC : List Nat → ZMod n) (added_entropy : List Nat)
    (key : SigningKey n) (digest : List Nat) : Option (Nat × Nat) :=
  let ephemeral_scalar := genK key.secret_scalar digest added_entropy
  let msg_scalar := fromDigestC digest
  try_sign_prehashed n xcoord key.secret_scalar ephemeral_scalar msg_scalar
